import Mathlib

/-!
Verification of the `ExecutionQueue` dependency-ordered task scheduler from
`misc/codereview/gclient_utils.py`.

The scheduler keeps four pieces of mutable state: `queued` (WorkItems not yet
started, in enqueue order), `ran` (names of items already run), `running`
(worker threads currently executing), and `exceptions` (a FIFO queue of
captured failures).  `flush()` repeatedly: discards `queued` when an exception
was captured, reaps terminated workers into `ran`, and dispatches the first
queued item whose requirements are all in `ran` — synchronously when
`jobs == 1`, on a fresh worker thread when `jobs > 1`.

The embedding below is shallow: a `WorkItem` carries, besides its `name` and
`requirements`, the caller-supplied behaviour of its `run()` method, namely
whether it raises (`fails`) and which further items it enqueues into the same
queue (`enqueues`).  Exceptions are identified by the failing item's name.
-/

namespace Gclient

/-- A `WorkItem` (gclient_utils.py, class WorkItem): a unique `name`, a list of
`requirements` (names of items that must have run first), and the behaviour of
its caller-supplied `run()` method: whether it raises, and which additional
items it enqueues into the queue while running. -/
inductive WorkItem : Type where
  | mk : String → List String → Bool → List WorkItem → WorkItem

/-- The item's unique name. -/
def WorkItem.name : WorkItem → String
  | .mk n _ _ _ => n

/-- The names of the items that must have run before this one starts. -/
def WorkItem.requirements : WorkItem → List String
  | .mk _ r _ _ => r

/-- Whether this item's `run()` raises an exception. -/
def WorkItem.fails : WorkItem → Bool
  | .mk _ _ f _ => f

/-- The items this item's `run()` enqueues into the same queue. -/
def WorkItem.enqueues : WorkItem → List WorkItem
  | .mk _ _ _ es => es

mutual

/-- All items hereditarily reachable from one item through `enqueues`
(the item itself included). -/
def WorkItem.closure : WorkItem → List WorkItem
  | .mk n r f es => .mk n r f es :: closureList es

/-- All items hereditarily reachable from a list of items through `enqueues`. -/
def closureList : List WorkItem → List WorkItem
  | [] => []
  | i :: is => i.closure ++ closureList is

end

/-- The inner `for r in self.queued[i].requirements` loop of `flush()`
(gclient_utils.py lines 597-601): an item may start only when every
requirement is already in `self.ran`. -/
def reqsMet (reqs ran : List String) : Bool :=
  reqs.all fun r => ran.contains r

/-- The readiness scan of `flush()` (lines 596-608): walk `queued` in order and
pop the first item whose requirements are all met, returning it together with
the remaining queue (`self.queued.pop(i)`); `none` when no queued item is
ready. -/
def findReady : List WorkItem → List String → Option (WorkItem × List WorkItem)
  | [], _ => none
  | q :: rest, ran =>
    if reqsMet q.requirements ran then some (q, rest)
    else
      match findReady rest ran with
      | some (it, rest') => some (it, q :: rest')
      | none => none

/-- Outcome of a `jobs = 1` run of `flush()`. -/
inductive SeqResult : Type where
  | success : SeqResult
  | raised : String → SeqResult
  | stalled : SeqResult
  | outOfFuel : SeqResult
deriving DecidableEq

/-- A call observed on the `Progress` collaborator. -/
inductive ProgressEvent : Type where
  | update : Nat → String → ProgressEvent
  | ended : ProgressEvent
deriving DecidableEq

/-- The observable outcome of a `jobs = 1` `flush()`: the result, the items
executed in order, and the final `self.ran`, `self.queued`, `self.exceptions`,
plus the calls made on the `Progress` collaborator. -/
structure SeqRun where
  result : SeqResult
  executed : List WorkItem
  ranAfter : List String
  queuedAfter : List WorkItem
  excsAfter : List String
  events : List ProgressEvent

/-- The scheduling loop of `flush()` specialised to `jobs = 1`
(gclient_utils.py lines 579-616 together with the synchronous branch of
`_run_one_task`, lines 652-658).  With `jobs = 1` no worker thread is ever
created, so `self.running` is always empty and `_flush_terminated_threads` is
a no-op; the loop therefore reduces to: discard `queued` if an exception is
pending, stop when `queued` is empty, otherwise scan for a ready item and run
it synchronously (its `run()` appends its `enqueues` to `queued`, then its
name is appended to `ran` and `progress.update(1, ...)` fires — with no
running workers the joined label is the empty string).  A raising item
propagates its exception out of the loop at once.  When no queued item is
ready the loop would wait on the condition variable forever (nothing can
change the state any more); that divergence is returned as `.stalled`.  Fuel
bounds the recursion; `.outOfFuel` is returned when it runs out. -/
def flushSeqLoop : Nat → List WorkItem → List String → List String → SeqRun
  | 0, queued, ran, excs => ⟨.outOfFuel, [], ran, queued, excs, []⟩
  | Nat.succ fuel, queued, ran, excs =>
    let queued1 := if excs.isEmpty then queued else []
    match queued1 with
    | [] => ⟨.success, [], ran, [], excs, []⟩
    | q :: qs =>
      match findReady (q :: qs) ran with
      | none => ⟨.stalled, [], ran, q :: qs, excs, []⟩
      | some (it, rest) =>
        if it.fails then ⟨.raised it.name, [it], ran, rest, excs, []⟩
        else
          let r := flushSeqLoop fuel (rest ++ it.enqueues) (ran ++ [it.name]) excs
          ⟨r.result, it :: r.executed, r.ranAfter, r.queuedAfter, r.excsAfter,
            .update 1 "" :: r.events⟩

/-- `flush()` for `jobs = 1` on a freshly built queue (`ran`, `exceptions`
empty): run the loop; afterwards re-raise the first captured exception if any
(none can be captured in synchronous mode), otherwise call `progress.end()`
(gclient_utils.py lines 618-627). -/
def flushSeq1 (fuel : Nat) (queued : List WorkItem) : SeqRun :=
  let r := flushSeqLoop fuel queued [] []
  match r.result with
  | .success =>
    match r.excsAfter with
    | e :: _ => { r with result := .raised e }
    | [] => { r with events := r.events ++ [.ended] }
  | _ => r

/-- Every item ever enqueued during a `jobs = 1` run from `init`: the items
enqueued by the caller up front plus everything the executed items enqueued
from inside their `run()`. -/
def enqueuedAll (fuel : Nat) (init : List WorkItem) : List WorkItem :=
  init ++ (flushSeqLoop fuel init [] []).executed.flatMap WorkItem.enqueues

/-- `j` is a direct prerequisite of `i` within the item collection `E`. -/
def Requires (E : List WorkItem) (j i : WorkItem) : Prop :=
  i ∈ E ∧ j ∈ E ∧ j.name ∈ i.requirements

/-- An entry of `self.running`: a `_Worker` thread for one item together with
its `isAlive()` status.  A worker's `run()` wraps `item.run()` in a
try/except, records a raised exception on the queue's exceptions FIFO, and
then terminates either way, so termination status does not reveal whether the
item succeeded. -/
structure Worker where
  item : WorkItem
  alive : Bool

/-- The scheduler state of an `ExecutionQueue`: `jobs`, `self.queued`,
`self.ran`, `self.running` and `self.exceptions` (the FIFO of captured
exception infos, identified here by the failing item's name). -/
structure QState where
  jobs : Nat
  queued : List WorkItem
  ran : List String
  running : List Worker
  exceptions : List String

/-- `_flush_terminated_threads` (gclient_utils.py lines 629-643): walk
`self.running` in order; keep threads still alive; join each terminated
thread, fire `progress.update(1, name)`, and append its item's name to
`self.ran` (guarded only by `name not in self.ran` — mirrored by the `assert`
on the line above — and *not* by whether the item's `run()` raised).  Returns
the new `running` and the new `ran`. -/
def flush_terminated (running : List Worker) (ran : List String) :
    List Worker × List String :=
  match running with
  | [] => ([], ran)
  | t :: ts =>
    if t.alive then
      let r := flush_terminated ts ran
      (t :: r.1, r.2)
    else
      flush_terminated ts (if t.item.name ∈ ran then ran else ran ++ [t.item.name])

/-- The effect of `_Worker.run` (lines 670-687) on the exceptions FIFO: the
worker catches any exception from `item.run()` and `put`s the exc_info onto
`work_queue.exceptions`; on success the FIFO is untouched. -/
def workerRunExcs (item : WorkItem) (excs : List String) : List String :=
  if item.fails then excs ++ [item.name] else excs

/-- What one iteration of the inner scheduling loop of `flush()` did. -/
inductive PassEvent : Type where
  | broke : PassEvent
  | dispatched : WorkItem → PassEvent
  | raisedSync : WorkItem → PassEvent

/-- One iteration of the inner `while True` loop of `flush()` (lines 584-609):
(1) if the exceptions FIFO is non-empty, systematically flush `self.queued`;
(2) `_flush_terminated_threads`; (3) break when nothing is queued and nothing
is running, or when `jobs` workers are already running; (4) otherwise scan
`queued` for the first item whose requirements are in `ran` (break out when
none is ready) and hand it to `_run_one_task` (lines 645-658): with
`jobs > 1` a new worker thread is appended to `running` and started; with
`jobs = 1` the item runs synchronously — on success its `enqueues` land in
`queued` and its name in `ran`, and an exception propagates straight out of
`flush()` (event `.raisedSync`). -/
def innerPass (s : QState) : QState × PassEvent :=
  let q1 := if s.exceptions.isEmpty then s.queued else []
  let r := flush_terminated s.running s.ran
  let s1 : QState := { s with queued := q1, running := r.1, ran := r.2 }
  if (q1.isEmpty && r.1.isEmpty) || s.jobs == r.1.length then
    (s1, .broke)
  else
    match findReady q1 r.2 with
    | none => (s1, .broke)
    | some (it, rest) =>
      if 1 < s.jobs then
        ({ s1 with queued := rest, running := r.1 ++ [⟨it, true⟩] }, .dispatched it)
      else
        if it.fails then
          ({ s1 with queued := rest }, .raisedSync it)
        else
          ({ s1 with queued := rest ++ it.enqueues, ran := r.2 ++ [it.name] },
            .dispatched it)

/-- An atomic event of a `flush()` run with worker threads: one iteration of
the inner scheduling loop by the control thread, the termination of a running
worker (whose `run()` has just recorded its exception, if any), or a call to
`enqueue()` from a worker's `item.run()` or from another thread. -/
inductive Event : Type where
  | pass : PassEvent → Event
  | finish : WorkItem → Event
  | enq : WorkItem → Event

/-- Interleaved small-step semantics of a `flush()` run: the control thread
performs inner-loop iterations under the condition-variable lock, while
workers terminate and `enqueue()` calls append items, in any order. -/
inductive Step : QState → Event → QState → Prop where
  | pass (s : QState) :
      Step s (.pass (innerPass s).2) (innerPass s).1
  | finish (s : QState) (k : Nat) (hk : k < s.running.length)
      (halive : (s.running.get ⟨k, hk⟩).alive = true) :
      Step s (.finish (s.running.get ⟨k, hk⟩).item)
        { s with
          running := s.running.set k ⟨(s.running.get ⟨k, hk⟩).item, false⟩,
          exceptions := workerRunExcs (s.running.get ⟨k, hk⟩).item s.exceptions }
  | enq (s : QState) (d : WorkItem) :
      Step s (.enq d) { s with queued := s.queued ++ [d] }

/-- A finite run of `Step`s with its event trace. -/
inductive Trace : QState → List Event → QState → Prop where
  | nil (s : QState) : Trace s [] s
  | cons {s s' s'' : QState} {e : Event} {evs : List Event} :
      Step s e s' → Trace s' evs s'' → Trace s (e :: evs) s''

/-- The failures captured during a trace, in capture order. -/
def capturedFailures (evs : List Event) : List String :=
  evs.filterMap fun e =>
    match e with
    | .finish it => if it.fails then some it.name else none
    | _ => none

/-- Whether an event dispatches an item (moves it out of `queued` into
`running`, or runs it synchronously). -/
def isDispatch : Event → Bool
  | .pass (.dispatched _) => true
  | .pass (.raisedSync _) => true
  | _ => false

/-- The code after the scheduling loop of `flush()` (lines 617-627): assert
`running` is empty, re-raise the first exception on the FIFO if there is one,
otherwise call `progress.end()`. -/
def flushEpilogue (s : QState) : Except String Unit × List ProgressEvent :=
  match s.exceptions with
  | e :: _ => (.error e, [])
  | [] => (.ok (), [.ended])

/-- The display state of the `Progress` collaborator
(third_party/repo/progress.py): `_total` and `_done`. -/
structure ProgressState where
  total : Nat
  done : Nat
deriving DecidableEq

/-- `enqueue(d)` (gclient_utils.py lines 562-577): under the lock, append `d`
to `self.queued`, compute `total = len(self.queued) + len(self.ran) +
len(self.running)` (after the append), set `progress._total = total + 1`,
call `progress.update(0)` (which adds 0 to `_done`), and `notifyAll` the
condition variable.  Returns the new scheduler state, the new progress state,
and whether the waiting loop was notified. -/
def enqueue (s : QState) (p : ProgressState) (d : WorkItem) :
    QState × ProgressState × Bool :=
  let s' : QState := { s with queued := s.queued ++ [d] }
  let total := s'.queued.length + s'.ran.length + s'.running.length
  (s', ⟨total + 1, p.done + 0⟩, true)

/-! ### Lemmas about the readiness scan -/

theorem reqsMet_iff {reqs ran : List String} :
    reqsMet reqs ran = true ↔ ∀ r ∈ reqs, r ∈ ran := by
  simp [reqsMet, List.all_eq_true, List.contains]

theorem findReady_reqsMet {q : List WorkItem} {ran : List String}
    {it : WorkItem} {rest : List WorkItem}
    (h : findReady q ran = some (it, rest)) :
    reqsMet it.requirements ran = true := by
  induction q generalizing rest with
  | nil => simp [findReady] at h
  | cons a as ih =>
    by_cases ha : reqsMet a.requirements ran = true
    · simp [findReady, ha] at h
      obtain ⟨h1, _⟩ := h
      exact h1 ▸ ha
    · rw [Bool.not_eq_true] at ha
      simp only [findReady, ha, Bool.false_eq_true, if_false] at h
      cases hfr : findReady as ran with
      | none => rw [hfr] at h; simp at h
      | some pr =>
        rw [hfr] at h
        obtain ⟨it', rest'⟩ := pr
        simp at h
        exact h.1 ▸ ih (hfr.trans (by rw [h.1]))

theorem findReady_perm {q : List WorkItem} {ran : List String}
    {it : WorkItem} {rest : List WorkItem}
    (h : findReady q ran = some (it, rest)) :
    q.Perm (it :: rest) := by
  induction q generalizing rest with
  | nil => simp [findReady] at h
  | cons a as ih =>
    by_cases ha : reqsMet a.requirements ran = true
    · simp [findReady, ha] at h
      exact h.1 ▸ h.2 ▸ List.Perm.refl _
    · rw [Bool.not_eq_true] at ha
      simp only [findReady, ha, Bool.false_eq_true, if_false] at h
      cases hfr : findReady as ran with
      | none => rw [hfr] at h; simp at h
      | some pr =>
        rw [hfr] at h
        obtain ⟨it', rest'⟩ := pr
        simp at h
        obtain ⟨h1, h2⟩ := h
        subst h1; subst h2
        exact (List.Perm.cons a (ih hfr)).trans (List.Perm.swap _ _ _)

theorem findReady_none {q : List WorkItem} {ran : List String}
    (h : findReady q ran = none) :
    ∀ x ∈ q, reqsMet x.requirements ran = false := by
  induction q with
  | nil => intro x hx; simp at hx
  | cons a as ih =>
    intro x hx
    by_cases ha : reqsMet a.requirements ran = true
    · simp [findReady, ha] at h
    · rw [Bool.not_eq_true] at ha
      simp only [findReady, ha, Bool.false_eq_true, if_false] at h
      cases hfr : findReady as ran with
      | some pr => rw [hfr] at h; simp at h
      | none =>
        rcases List.mem_cons.mp hx with rfl | hx'
        · exact ha
        · exact ih hfr x hx'

/-- The readiness scan picks exactly the first ready item of the queue and
pops it by index. -/
theorem findReady_first {q : List WorkItem} {ran : List String}
    {it : WorkItem} {rest : List WorkItem}
    (h : findReady q ran = some (it, rest)) :
    ∃ i, ∃ hi : i < q.length,
      it = q.get ⟨i, hi⟩ ∧ rest = q.eraseIdx i ∧
      reqsMet it.requirements ran = true ∧
      ∀ j, ∀ hj : j < i, reqsMet ((q.get ⟨j, Nat.lt_trans hj hi⟩).requirements) ran = false := by
  induction q generalizing rest with
  | nil => simp [findReady] at h
  | cons a as ih =>
    by_cases ha : reqsMet a.requirements ran = true
    · simp [findReady, ha] at h
      refine ⟨0, by simp, by simp [h.1], by simp [List.eraseIdx, h.2], h.1 ▸ ha, ?_⟩
      intro j hj; omega
    · rw [Bool.not_eq_true] at ha
      simp only [findReady, ha, Bool.false_eq_true, if_false] at h
      cases hfr : findReady as ran with
      | none => rw [hfr] at h; simp at h
      | some pr =>
        rw [hfr] at h
        obtain ⟨it', rest'⟩ := pr
        simp at h
        obtain ⟨h1, h2⟩ := h
        subst h1; subst h2
        obtain ⟨i, hi, hget, hrest, hmet, hfirst⟩ := ih hfr
        refine ⟨i + 1, by simpa using Nat.succ_lt_succ hi, by simpa using hget,
          by simp [List.eraseIdx, hrest], hmet, ?_⟩
        intro j hj
        cases j with
        | zero => simpa using ha
        | succ j' => simpa using hfirst j' (Nat.lt_of_succ_lt_succ hj)

/-! ### Lemmas about the enqueue closure -/

theorem closure_def (i : WorkItem) :
    WorkItem.closure i = i :: closureList i.enqueues := by
  cases i; rfl

theorem closureList_append (a b : List WorkItem) :
    closureList (a ++ b) = closureList a ++ closureList b := by
  induction a with
  | nil => rfl
  | cons x xs ih => simp [closureList, ih]

theorem closureList_perm {a b : List WorkItem} (h : a.Perm b) :
    (closureList a).Perm (closureList b) := by
  induction h with
  | nil => exact List.Perm.refl _
  | cons x _ ih => simpa [closureList] using List.Perm.append_left _ ih
  | swap x y l =>
    simp only [closureList, ← List.append_assoc]
    exact List.Perm.append_right _ (List.perm_append_comm)
  | trans _ _ ih1 ih2 => exact ih1.trans ih2

/-- Popping a ready item and enqueuing what it enqueues shrinks the total
closure by exactly the popped item. -/
theorem closureList_length_pop {q : List WorkItem} {ran : List String}
    {it : WorkItem} {rest : List WorkItem}
    (h : findReady q ran = some (it, rest)) :
    (closureList (rest ++ it.enqueues)).length + 1 = (closureList q).length := by
  have hp := closureList_perm (findReady_perm h)
  have : closureList (it :: rest) = (it :: closureList it.enqueues) ++ closureList rest := by
    simp [closureList, closure_def]
  rw [hp.length_eq, this, closureList_append]
  simp [List.length_append]
  omega

/-! ### Step equations for the `jobs = 1` scheduling loop -/

theorem flushSeqLoop_nil (fuel : Nat) (ran : List String) :
    flushSeqLoop (fuel + 1) [] ran [] = ⟨.success, [], ran, [], [], []⟩ := rfl

theorem flushSeqLoop_stall {q : List WorkItem} {ran : List String} (fuel : Nat)
    (hne : q ≠ []) (h : findReady q ran = none) :
    flushSeqLoop (fuel + 1) q ran [] = ⟨.stalled, [], ran, q, [], []⟩ := by
  cases q with
  | nil => exact absurd rfl hne
  | cons a as => simp [flushSeqLoop, h]

theorem flushSeqLoop_fail {q : List WorkItem} {ran : List String}
    {it : WorkItem} {rest : List WorkItem} (fuel : Nat)
    (h : findReady q ran = some (it, rest)) (hf : it.fails = true) :
    flushSeqLoop (fuel + 1) q ran [] = ⟨.raised it.name, [it], ran, rest, [], []⟩ := by
  cases q with
  | nil => simp [findReady] at h
  | cons a as => simp [flushSeqLoop, h, hf]

theorem flushSeqLoop_ok {q : List WorkItem} {ran : List String}
    {it : WorkItem} {rest : List WorkItem} (fuel : Nat)
    (h : findReady q ran = some (it, rest)) (hf : it.fails = false) :
    flushSeqLoop (fuel + 1) q ran [] =
      ⟨(flushSeqLoop fuel (rest ++ it.enqueues) (ran ++ [it.name]) []).result,
        it :: (flushSeqLoop fuel (rest ++ it.enqueues) (ran ++ [it.name]) []).executed,
        (flushSeqLoop fuel (rest ++ it.enqueues) (ran ++ [it.name]) []).ranAfter,
        (flushSeqLoop fuel (rest ++ it.enqueues) (ran ++ [it.name]) []).queuedAfter,
        (flushSeqLoop fuel (rest ++ it.enqueues) (ran ++ [it.name]) []).excsAfter,
        .update 1 "" :: (flushSeqLoop fuel (rest ++ it.enqueues) (ran ++ [it.name]) []).events⟩ := by
  cases q with
  | nil => simp [findReady] at h
  | cons a as => simp [flushSeqLoop, h, hf]

/-- In synchronous mode nothing is ever put on the exceptions FIFO. -/
theorem flushSeqLoop_excs (fuel : Nat) :
    ∀ q ran, (flushSeqLoop fuel q ran []).excsAfter = [] := by
  induction fuel with
  | zero => intro q ran; rfl
  | succ fuel ih =>
    intro q ran
    cases q with
    | nil => rw [flushSeqLoop_nil]
    | cons a as =>
      cases hfr : findReady (a :: as) ran with
      | none => rw [flushSeqLoop_stall fuel (by simp) hfr]
      | some pr =>
        obtain ⟨it, rest⟩ := pr
        cases hf : it.fails with
        | true => rw [flushSeqLoop_fail fuel hfr hf]
        | false => rw [flushSeqLoop_ok fuel hfr hf]; exact ih _ _

/-- On a successful run `self.ran` grows by exactly the names of the executed
items, in execution order, and the queue drains completely. -/
theorem flushSeqLoop_success_ran (fuel : Nat) :
    ∀ q ran, (flushSeqLoop fuel q ran []).result = .success →
      (flushSeqLoop fuel q ran []).ranAfter =
        ran ++ (flushSeqLoop fuel q ran []).executed.map WorkItem.name ∧
      (flushSeqLoop fuel q ran []).queuedAfter = [] := by
  induction fuel with
  | zero => intro q ran h; simp [flushSeqLoop] at h
  | succ fuel ih =>
    intro q ran h
    cases q with
    | nil => rw [flushSeqLoop_nil] at h ⊢; simp
    | cons a as =>
      cases hfr : findReady (a :: as) ran with
      | none => rw [flushSeqLoop_stall fuel (by simp) hfr] at h; simp at h
      | some pr =>
        obtain ⟨it, rest⟩ := pr
        cases hf : it.fails with
        | true => rw [flushSeqLoop_fail fuel hfr hf] at h; simp at h
        | false =>
          rw [flushSeqLoop_ok fuel hfr hf] at h ⊢
          obtain ⟨h1, h2⟩ := ih (rest ++ it.enqueues) (ran ++ [it.name]) h
          exact ⟨by simp [h1], h2⟩

/-- On a successful run, the items ever enqueued (initial queue plus the
`enqueues` of every executed item) are exactly the executed items, as a
multiset. -/
theorem flushSeqLoop_success_perm (fuel : Nat) :
    ∀ q ran, (flushSeqLoop fuel q ran []).result = .success →
      (q ++ (flushSeqLoop fuel q ran []).executed.flatMap WorkItem.enqueues).Perm
        (flushSeqLoop fuel q ran []).executed := by
  induction fuel with
  | zero => intro q ran h; simp [flushSeqLoop] at h
  | succ fuel ih =>
    intro q ran h
    cases q with
    | nil => rw [flushSeqLoop_nil] at h ⊢; simp
    | cons a as =>
      cases hfr : findReady (a :: as) ran with
      | none => rw [flushSeqLoop_stall fuel (by simp) hfr] at h; simp at h
      | some pr =>
        obtain ⟨it, rest⟩ := pr
        cases hf : it.fails with
        | true => rw [flushSeqLoop_fail fuel hfr hf] at h; simp at h
        | false =>
          rw [flushSeqLoop_ok fuel hfr hf] at h ⊢
          have ihp := ih (rest ++ it.enqueues) (ran ++ [it.name]) h
          simp only [List.flatMap_cons, ← List.append_assoc]
          have hp : ((a :: as) ++ it.enqueues).Perm ((it :: rest) ++ it.enqueues) :=
            (findReady_perm hfr).append_right _
          refine ((hp.append_right _).trans ?_)
          simp only [List.cons_append, List.append_assoc]
          exact List.Perm.cons it (by simpa [List.append_assoc] using ihp)

/-- On a successful run every executed item had all of its requirements in
`ran` at the moment it started: each requirement of the `k`-th executed item
is in the initial `ran` or among the names of the first `k` executed items. -/
theorem flushSeqLoop_success_order (fuel : Nat) :
    ∀ q ran, (flushSeqLoop fuel q ran []).result = .success →
      ∀ k, ∀ hk : k < (flushSeqLoop fuel q ran []).executed.length,
        ∀ s ∈ ((flushSeqLoop fuel q ran []).executed.get ⟨k, hk⟩).requirements,
          s ∈ ran ++ ((flushSeqLoop fuel q ran []).executed.take k).map WorkItem.name := by
  induction fuel with
  | zero => intro q ran h; simp [flushSeqLoop] at h
  | succ fuel ih =>
    intro q ran h
    cases q with
    | nil =>
      rw [flushSeqLoop_nil] at h ⊢
      intro k hk; simp at hk
    | cons a as =>
      cases hfr : findReady (a :: as) ran with
      | none => rw [flushSeqLoop_stall fuel (by simp) hfr] at h; simp at h
      | some pr =>
        obtain ⟨it, rest⟩ := pr
        cases hf : it.fails with
        | true => rw [flushSeqLoop_fail fuel hfr hf] at h; simp at h
        | false =>
          rw [flushSeqLoop_ok fuel hfr hf] at h ⊢
          intro k hk s hs
          cases k with
          | zero =>
            have := reqsMet_iff.mp (findReady_reqsMet hfr) s (by simpa using hs)
            simp [this]
          | succ k' =>
            simp only [List.length_cons, Nat.succ_lt_succ_iff] at hk
            have := ih (rest ++ it.enqueues) (ran ++ [it.name]) h k' hk s (by simpa using hs)
            simpa [List.append_assoc] using this

/-- The loop runs out of fuel only when given at most as much fuel as the
size of the hereditary enqueue closure of the queue. -/
theorem flushSeqLoop_outOfFuel (fuel : Nat) :
    ∀ q ran, (flushSeqLoop fuel q ran []).result = .outOfFuel →
      fuel ≤ (closureList q).length := by
  induction fuel with
  | zero => intro q ran _; exact Nat.zero_le _
  | succ fuel ih =>
    intro q ran h
    cases q with
    | nil => rw [flushSeqLoop_nil] at h; simp at h
    | cons a as =>
      cases hfr : findReady (a :: as) ran with
      | none => rw [flushSeqLoop_stall fuel (by simp) hfr] at h; simp at h
      | some pr =>
        obtain ⟨it, rest⟩ := pr
        cases hf : it.fails with
        | true => rw [flushSeqLoop_fail fuel hfr hf] at h; simp at h
        | false =>
          rw [flushSeqLoop_ok fuel hfr hf] at h
          have h1 := ih (rest ++ it.enqueues) (ran ++ [it.name]) h
          have h2 := closureList_length_pop hfr
          omega

/-- A raised result comes from an ever-enqueued item whose `run()` raises, and
carries that item's exception. -/
theorem flushSeqLoop_raised (fuel : Nat) :
    ∀ q ran e, (flushSeqLoop fuel q ran []).result = .raised e →
      ∃ it, (it ∈ q ∨ it ∈ (flushSeqLoop fuel q ran []).executed.flatMap WorkItem.enqueues) ∧
        it.fails = true ∧ e = it.name := by
  induction fuel with
  | zero => intro q ran e h; simp [flushSeqLoop] at h
  | succ fuel ih =>
    intro q ran e h
    cases q with
    | nil => rw [flushSeqLoop_nil] at h; simp at h
    | cons a as =>
      cases hfr : findReady (a :: as) ran with
      | none => rw [flushSeqLoop_stall fuel (by simp) hfr] at h; simp at h
      | some pr =>
        obtain ⟨it, rest⟩ := pr
        cases hf : it.fails with
        | true =>
          rw [flushSeqLoop_fail fuel hfr hf] at h ⊢
          simp only [SeqResult.raised.injEq] at h
          exact ⟨it, Or.inl ((findReady_perm hfr).mem_iff.mpr (by simp)), hf, h.symm⟩
        | false =>
          rw [flushSeqLoop_ok fuel hfr hf] at h ⊢
          obtain ⟨it', hmem, hfail, he⟩ := ih (rest ++ it.enqueues) (ran ++ [it.name]) e h
          refine ⟨it', ?_, hfail, he⟩
          rcases hmem with hmem | hmem
          · rcases List.mem_append.mp hmem with hr | henq
            · exact Or.inl ((findReady_perm hfr).mem_iff.mpr (List.mem_cons_of_mem _ hr))
            · exact Or.inr (by simp [henq])
          · exact Or.inr (by
              simp only [List.flatMap_cons, List.mem_append]
              exact Or.inr hmem)

/-- A stalled run ends in a state where no queued item is ready, the queue is
non-empty, `ran` lists exactly the executed names, and the ever-enqueued items
are, as a set, the executed items together with the still queued ones. -/
theorem flushSeqLoop_stalled (fuel : Nat) :
    ∀ q ran, (flushSeqLoop fuel q ran []).result = .stalled →
      findReady (flushSeqLoop fuel q ran []).queuedAfter
        (flushSeqLoop fuel q ran []).ranAfter = none ∧
      (flushSeqLoop fuel q ran []).queuedAfter ≠ [] ∧
      (flushSeqLoop fuel q ran []).ranAfter =
        ran ++ (flushSeqLoop fuel q ran []).executed.map WorkItem.name ∧
      ∀ x, (x ∈ q ∨ x ∈ (flushSeqLoop fuel q ran []).executed.flatMap WorkItem.enqueues) ↔
        (x ∈ (flushSeqLoop fuel q ran []).executed ∨
          x ∈ (flushSeqLoop fuel q ran []).queuedAfter) := by
  induction fuel with
  | zero => intro q ran h; simp [flushSeqLoop] at h
  | succ fuel ih =>
    intro q ran h
    cases q with
    | nil => rw [flushSeqLoop_nil] at h; simp at h
    | cons a as =>
      cases hfr : findReady (a :: as) ran with
      | none =>
        rw [flushSeqLoop_stall fuel (by simp) hfr] at h ⊢
        refine ⟨hfr, by simp, by simp, ?_⟩
        intro x; simp
      | some pr =>
        obtain ⟨it, rest⟩ := pr
        cases hf : it.fails with
        | true => rw [flushSeqLoop_fail fuel hfr hf] at h; simp at h
        | false =>
          rw [flushSeqLoop_ok fuel hfr hf] at h ⊢
          obtain ⟨h1, h2, h3, h4⟩ := ih (rest ++ it.enqueues) (ran ++ [it.name]) h
          refine ⟨h1, h2, by simp [h3], ?_⟩
          intro x
          have hq := (findReady_perm hfr).mem_iff (a := x)
          have h4x := h4 x
          simp only [List.mem_append] at h4x
          simp only [List.flatMap_cons, List.mem_append, List.mem_cons, hq]
          constructor
          · rintro (⟨rfl | hx⟩ | hx | hx)
            · exact Or.inl (Or.inl rfl)
            · rcases h4x.mp (Or.inl (Or.inl hx)) with hy | hy
              · exact Or.inl (Or.inr hy)
              · exact Or.inr hy
            · rcases h4x.mp (Or.inl (Or.inr hx)) with hy | hy
              · exact Or.inl (Or.inr hy)
              · exact Or.inr hy
            · rcases h4x.mp (Or.inr hx) with hy | hy
              · exact Or.inl (Or.inr hy)
              · exact Or.inr hy
          · rintro (⟨rfl | hx⟩ | hx)
            · exact Or.inl (Or.inl rfl)
            · rcases h4x.mpr (Or.inl hx) with hy | hy
              · rcases hy with hz | hz
                · exact Or.inl (Or.inr hz)
                · exact Or.inr (Or.inl hz)
              · exact Or.inr (Or.inr hy)
            · rcases h4x.mpr (Or.inr hx) with hy | hy
              · rcases hy with hz | hz
                · exact Or.inl (Or.inr hz)
                · exact Or.inr (Or.inl hz)
              · exact Or.inr (Or.inr hy)

/-! ### C1: jobs = 1 executes every enqueued item exactly once, in dependency order -/

/-- When the loop succeeds, `flush()` keeps its outcome and additionally calls
`progress.end()` (nothing is ever on the exceptions FIFO in synchronous
mode). -/
theorem flushSeq1_of_success {fuel : Nat} {q : List WorkItem}
    (h : (flushSeqLoop fuel q [] []).result = .success) :
    (flushSeq1 fuel q).result = .success ∧
    (flushSeq1 fuel q).executed = (flushSeqLoop fuel q [] []).executed ∧
    (flushSeq1 fuel q).ranAfter = (flushSeqLoop fuel q [] []).ranAfter ∧
    (flushSeq1 fuel q).events = (flushSeqLoop fuel q [] []).events ++ [.ended] := by
  simp [flushSeq1, h, flushSeqLoop_excs]

/-- A rank function that decreases along prerequisite edges witnesses that the
dependency relation is acyclic (well-founded). -/
theorem wf_of_rank (E : List WorkItem) (rank : WorkItem → Nat)
    (h : ∀ i j, Requires E j i → rank j < rank i) :
    WellFounded (Requires E) :=
  Subrelation.wf (fun hji => h _ _ hji) (InvImage.wf rank Nat.lt_wfRel.wf)

/-- C1: For every acyclic set of work items with unique names whose
requirements all name enqueued items, `flush()` on an `ExecutionQueue` with
`jobs = 1` executes every enqueued item — including the ones enqueued from
inside another item's `run()` — exactly once, and each item runs only after
all of the items named in its `requirements` have already run.  The enqueued
items are `enqueuedAll fuel init`: the initial queue plus everything enqueued
mid-run; the hypotheses ask that no two carry the same name, that every
requirement names one of them, that none of them raises (the claim speaks of
a run in which everything executes), that the prerequisite relation on them
is acyclic (well-founded), and that the fuel exceeds the hereditary enqueue
closure of the initial queue (which bounds the number of loop iterations, so
the fuel encoding is not restrictive). -/
theorem c1_flush_jobs1_executes_all (init : List WorkItem) (fuel : Nat)
    (hfuel : (closureList init).length < fuel)
    (huniq : ((enqueuedAll fuel init).map WorkItem.name).Nodup)
    (hreq : ∀ i ∈ enqueuedAll fuel init, ∀ s ∈ i.requirements,
      s ∈ (enqueuedAll fuel init).map WorkItem.name)
    (hfail : ∀ i ∈ enqueuedAll fuel init, i.fails = false)
    (hwf : WellFounded (Requires (enqueuedAll fuel init))) :
    (flushSeq1 fuel init).result = .success ∧
    (enqueuedAll fuel init).Perm (flushSeq1 fuel init).executed ∧
    (flushSeq1 fuel init).ranAfter.Perm ((enqueuedAll fuel init).map WorkItem.name) ∧
    (flushSeq1 fuel init).ranAfter.Nodup ∧
    ∀ k, ∀ hk : k < (flushSeq1 fuel init).executed.length,
      ∀ s ∈ ((flushSeq1 fuel init).executed.get ⟨k, hk⟩).requirements,
        s ∈ ((flushSeq1 fuel init).executed.take k).map WorkItem.name := by
  have hsucc : (flushSeqLoop fuel init [] []).result = .success := by
    cases hres : (flushSeqLoop fuel init [] []).result with
    | success => rfl
    | outOfFuel => exact absurd (flushSeqLoop_outOfFuel fuel init [] hres) (by omega)
    | raised e =>
      obtain ⟨it, hmem, hfl, _⟩ := flushSeqLoop_raised fuel init [] e hres
      have : it ∈ enqueuedAll fuel init := List.mem_append.mpr hmem
      exact absurd (hfail it this) (by simp [hfl])
    | stalled =>
      obtain ⟨h1, h2, h3, h4⟩ := flushSeqLoop_stalled fuel init [] hres
      obtain ⟨m0, hm0⟩ := List.exists_mem_of_ne_nil _ h2
      obtain ⟨m, hmS, hmin⟩ := hwf.has_min
        {x | x ∈ (flushSeqLoop fuel init [] []).queuedAfter} ⟨m0, hm0⟩
      have hmE : m ∈ enqueuedAll fuel init :=
        List.mem_append.mpr ((h4 m).mpr (Or.inr hmS))
      have hready : reqsMet m.requirements (flushSeqLoop fuel init [] []).ranAfter = true := by
        rw [reqsMet_iff]
        intro s hs
        obtain ⟨y, hyE, hys⟩ := List.exists_of_mem_map (hreq m hmE s hs)
        rcases (h4 y).mp (List.mem_append.mp hyE) with hy | hy
        · rw [h3]
          simp only [List.nil_append, List.mem_map]
          exact ⟨y, hy, hys⟩
        · exact absurd ⟨hmE, List.mem_append.mpr ((h4 y).mpr (Or.inr hy)), hys ▸ hs⟩
            (hmin y hy)
      exact absurd (findReady_none h1 m hmS) (by simp [hready])
  obtain ⟨f1, f2, f3, _⟩ := flushSeq1_of_success hsucc
  have hperm := flushSeqLoop_success_perm fuel init [] hsucc
  have hran := (flushSeqLoop_success_ran fuel init [] hsucc).1
  refine ⟨f1, ?_, ?_, ?_, ?_⟩
  · rw [f2]; exact hperm
  · rw [f3, hran, List.nil_append]
    exact (hperm.map WorkItem.name).symm
  · rw [f3, hran, List.nil_append]
    exact (hperm.map WorkItem.name).nodup huniq
  · rw [f2]
    intro k hk s hs
    simpa using flushSeqLoop_success_order fuel init [] hsucc k hk s hs

/-- Witness for C1: items a (no requirements; its `run()` enqueues c), b
(requires a) and c (requires b), run with `jobs = 1`.  All three execute. -/
theorem c1_witness :
    (closureList [WorkItem.mk "a" [] false [WorkItem.mk "c" ["b"] false []],
        WorkItem.mk "b" ["a"] false []]).length < 9 ∧
    (flushSeq1 9 [WorkItem.mk "a" [] false [WorkItem.mk "c" ["b"] false []],
        WorkItem.mk "b" ["a"] false []]).result = .success ∧
    (flushSeq1 9 [WorkItem.mk "a" [] false [WorkItem.mk "c" ["b"] false []],
        WorkItem.mk "b" ["a"] false []]).ranAfter.Perm
      ((enqueuedAll 9 [WorkItem.mk "a" [] false [WorkItem.mk "c" ["b"] false []],
        WorkItem.mk "b" ["a"] false []]).map WorkItem.name) := by
  have h := c1_flush_jobs1_executes_all
    [WorkItem.mk "a" [] false [WorkItem.mk "c" ["b"] false []],
      WorkItem.mk "b" ["a"] false []] 9
    (by decide)
    (by decide)
    (by decide)
    (by decide)
    (wf_of_rank _ (fun i => if i.name = "a" then 0 else if i.name = "b" then 1 else 2)
      (by
        have hE : enqueuedAll 9 [WorkItem.mk "a" [] false [WorkItem.mk "c" ["b"] false []],
            WorkItem.mk "b" ["a"] false []] =
            [WorkItem.mk "a" [] false [WorkItem.mk "c" ["b"] false []],
              WorkItem.mk "b" ["a"] false [], WorkItem.mk "c" ["b"] false []] := rfl
        intro i j hji
        obtain ⟨hiE, hjE, hname⟩ := hji
        rw [hE] at hiE hjE
        simp only [List.mem_cons, List.not_mem_nil, or_false] at hiE hjE
        rcases hiE with rfl | rfl | rfl <;> rcases hjE with rfl | rfl | rfl <;>
          revert hname <;> decide))
  exact ⟨by decide, h.1, h.2.2.1⟩

/-! ### C2: what reaping records -/

/-- Reaping never removes names from `self.ran`. -/
theorem flush_terminated_mem_ran (running : List Worker) :
    ∀ ran : List String, ∀ s ∈ ran, s ∈ (flush_terminated running ran).2 := by
  induction running with
  | nil => intro ran s hs; simpa [flush_terminated]
  | cons t ts ih =>
    intro ran s hs
    by_cases ht : t.alive
    · simpa [flush_terminated, ht] using ih ran s hs
    · simp only [flush_terminated, ht, Bool.false_eq_true, if_false]
      apply ih
      by_cases hmem : t.item.name ∈ ran
      · simpa [hmem]
      · simp [hmem, hs]

/-- Reaping records the name of every terminated worker, whether or not its
item raised. -/
theorem flush_terminated_dead_mem (running : List Worker) :
    ∀ ran : List String, ∀ w ∈ running, w.alive = false →
      w.item.name ∈ (flush_terminated running ran).2 := by
  induction running with
  | nil => intro ran w hw; simp at hw
  | cons t ts ih =>
    intro ran w hw hdead
    rcases List.mem_cons.mp hw with rfl | hw'
    · simp only [flush_terminated, hdead, Bool.false_eq_true, if_false]
      apply flush_terminated_mem_ran
      by_cases hmem : w.item.name ∈ ran
      · simp [hmem]
      · simp [hmem]
    · by_cases ht : t.alive
      · simpa [flush_terminated, ht] using ih ran w hw' hdead
      · simp only [flush_terminated, ht, Bool.false_eq_true, if_false]
        exact ih _ w hw' hdead

/-- C2 counterexample: the claim says a reaped item whose `run()` raised is
not added to the completed set; but `_flush_terminated_threads` appends the
item's name to `self.ran` without consulting the outcome, so a terminated
worker for the raising item "x" still lands in `self.ran`. -/
theorem c2_counterexample :
    (WorkItem.mk "x" [] true []).fails = true ∧
    (flush_terminated [Worker.mk (WorkItem.mk "x" [] true []) false] []).2 = ["x"] := by
  constructor
  · rfl
  · rfl

/-- C2 amended: when the scheduler reaps a terminated worker it appends the
worker's item name to the completed list `self.ran` regardless of whether the
item's `run()` raised; the captured failure is recorded on the exceptions
FIFO by the worker itself (in `_Worker.run`), not during reaping. -/
theorem c2_reap_records_regardless (running : List Worker) (ran : List String)
    (w : Worker) (hw : w ∈ running) (hdead : w.alive = false) :
    w.item.name ∈ (flush_terminated running ran).2 ∧
    (∀ excs : List String, w.item.fails = true →
      workerRunExcs w.item excs = excs ++ [w.item.name]) := by
  refine ⟨flush_terminated_dead_mem running ran w hw hdead, ?_⟩
  intro excs hf
  simp [workerRunExcs, hf]

/-- Witness for C2 amended: a single terminated worker for the raising item
"x" is reaped into `self.ran`, and its failure went to the exceptions FIFO. -/
theorem c2_witness :
    "x" ∈ (flush_terminated [Worker.mk (WorkItem.mk "x" [] true []) false] []).2 ∧
    workerRunExcs (WorkItem.mk "x" [] true []) [] = [] ++ ["x"] := by
  have h := c2_reap_records_regardless
    [Worker.mk (WorkItem.mk "x" [] true []) false] []
    (Worker.mk (WorkItem.mk "x" [] true []) false) (by simp) rfl
  exact ⟨h.1, h.2 [] rfl⟩

/-! ### C8: what enqueue does -/

/-- C8 counterexample: the claim says `enqueue` sets the progress sink's
total to the new total item count; on an empty scheduler the count after
enqueuing one item is 1, but the code sets `progress._total` to 2
(`total + 1`). -/
theorem c8_counterexample :
    ((enqueue ⟨1, [], [], [], []⟩ ⟨0, 0⟩ (WorkItem.mk "x" [] false [])).1.queued.length +
      (enqueue ⟨1, [], [], [], []⟩ ⟨0, 0⟩ (WorkItem.mk "x" [] false [])).1.ran.length +
      (enqueue ⟨1, [], [], [], []⟩ ⟨0, 0⟩ (WorkItem.mk "x" [] false [])).1.running.length = 1) ∧
    (enqueue ⟨1, [], [], [], []⟩ ⟨0, 0⟩ (WorkItem.mk "x" [] false [])).2.1.total = 2 := by
  constructor
  · rfl
  · rfl

/-- C8 amended: every call to `enqueue(item)` appends the item to the ready
queue, notifies the waiting scheduling loop, and sets the progress sink's
total to the new total item count (queued plus completed plus running, after
the append) *plus one*; `update(0)` leaves the progress done-count
unchanged. -/
theorem c8_enqueue_amended (s : QState) (p : ProgressState) (d : WorkItem) :
    (enqueue s p d).1.queued = s.queued ++ [d] ∧
    (enqueue s p d).1.ran = s.ran ∧
    (enqueue s p d).1.running = s.running ∧
    (enqueue s p d).1.exceptions = s.exceptions ∧
    (enqueue s p d).2.2 = true ∧
    (enqueue s p d).2.1.total =
      ((s.queued.length + 1) + s.ran.length + s.running.length) + 1 ∧
    (enqueue s p d).2.1.done = p.done := by
  refine ⟨rfl, rfl, rfl, rfl, rfl, ?_, rfl⟩
  simp [enqueue]

/-! ### C9: dispatch order is a linear readiness scan in insertion order -/

/-- C9: on each dispatch pass the scheduler scans the queue in enqueue
(insertion) order and starts the first item whose requirements are all in the
completed set; and there are states in which an earlier-enqueued item has
unmet requirements while a later-enqueued item is ready, and the
later-enqueued item is dispatched first (here: "a" requires the never-run
"z", so the later-enqueued "b" is dispatched). -/
theorem c9_scan_insertion_order :
    (∀ (q : List WorkItem) (ran : List String) (it : WorkItem) (rest : List WorkItem),
      findReady q ran = some (it, rest) →
      ∃ i, ∃ hi : i < q.length,
        it = q.get ⟨i, hi⟩ ∧ rest = q.eraseIdx i ∧
        reqsMet it.requirements ran = true ∧
        ∀ j, ∀ hj : j < i,
          reqsMet ((q.get ⟨j, Nat.lt_trans hj hi⟩).requirements) ran = false) ∧
    (innerPass ⟨2, [WorkItem.mk "a" ["z"] false [], WorkItem.mk "b" [] false []],
        [], [], []⟩).2 = .dispatched (WorkItem.mk "b" [] false []) := by
  constructor
  · intro q ran it rest h
    exact findReady_first h
  · rfl

/-- Witness for C9: the scan characterisation applied to the concrete queue
[a requires z, b] with nothing completed: the ready item found is "b" at
index 1, and the item before it is not ready. -/
theorem c9_witness :
    ∃ i, ∃ hi : i < ([WorkItem.mk "a" ["z"] false [], WorkItem.mk "b" [] false []] :
        List WorkItem).length,
      WorkItem.mk "b" [] false [] =
        ([WorkItem.mk "a" ["z"] false [], WorkItem.mk "b" [] false []] :
          List WorkItem).get ⟨i, hi⟩ ∧
      [WorkItem.mk "a" ["z"] false []] =
        ([WorkItem.mk "a" ["z"] false [], WorkItem.mk "b" [] false []] :
          List WorkItem).eraseIdx i ∧
      reqsMet (WorkItem.mk "b" [] false []).requirements [] = true ∧
      ∀ j, ∀ hj : j < i,
        reqsMet ((([WorkItem.mk "a" ["z"] false [], WorkItem.mk "b" [] false []] :
          List WorkItem).get ⟨j, Nat.lt_trans hj hi⟩).requirements) [] = false :=
  c9_scan_insertion_order.1
    [WorkItem.mk "a" ["z"] false [], WorkItem.mk "b" [] false []] []
    (WorkItem.mk "b" [] false []) [WorkItem.mk "a" ["z"] false []] rfl

/-! ### C10: flushing a never-used queue -/

/-- C10: `flush()` on a scheduler on which nothing was ever enqueued returns
success immediately without executing anything: the first inner pass breaks
with the state unchanged, the outer loop's exit guard holds at once, and the
epilogue returns success after calling `progress.end()` exactly once; in the
executable `jobs = 1` semantics the whole run is a success with nothing
executed, no state change, and `[.ended]` as the only progress call. -/
theorem c10_flush_empty :
    (∀ jobs : Nat,
      innerPass ⟨jobs, [], [], [], []⟩ = (⟨jobs, [], [], [], []⟩, .broke) ∧
      flushEpilogue ⟨jobs, [], [], [], []⟩ = (.ok (), [.ended])) ∧
    (∀ fuel : Nat, flushSeq1 (fuel + 1) [] = ⟨.success, [], [], [], [], [.ended]⟩) := by
  exact ⟨fun jobs => ⟨rfl, rfl⟩, fun fuel => rfl⟩

/-! ### Lemmas about one inner scheduling pass -/

/-- Reaping can only shrink the running list. -/
theorem flush_terminated_length (running : List Worker) :
    ∀ ran : List String, (flush_terminated running ran).1.length ≤ running.length := by
  induction running with
  | nil => intro ran; simp [flush_terminated]
  | cons t ts ih =>
    intro ran
    by_cases ht : t.alive
    · simp only [flush_terminated, ht, if_true, List.length_cons]
      exact Nat.succ_le_succ (ih ran)
    · simp only [flush_terminated, ht, Bool.false_eq_true, if_false, List.length_cons]
      exact Nat.le_succ_of_le (ih _)

/-- The control thread's inner pass never touches the exceptions FIFO
(`flush()` only reads it inside the loop). -/
theorem innerPass_exceptions (s : QState) :
    (innerPass s).1.exceptions = s.exceptions := by
  simp only [innerPass]
  repeat' split
  all_goals rfl

/-- The inner pass never changes `jobs`. -/
theorem innerPass_jobs (s : QState) : (innerPass s).1.jobs = s.jobs := by
  simp only [innerPass]
  repeat' split
  all_goals rfl

/-- C3 core: whenever the inner pass dispatches an item (into `running` or
synchronously), that item's requirements were all in the completed list as it
stood at the moment of dispatch (after the reap of the same pass). -/
theorem innerPass_dispatch_reqs (s s' : QState) (it : WorkItem)
    (hip : innerPass s = (s', .dispatched it) ∨ innerPass s = (s', .raisedSync it)) :
    reqsMet it.requirements (flush_terminated s.running s.ran).2 = true := by
  simp only [innerPass] at hip
  rcases hip with hip | hip <;>
  · repeat' split at hip
    all_goals injection hip with h1 h2
    all_goals cases h2
    all_goals exact findReady_reqsMet (by assumption)

/-- With `jobs = 1`, a dispatched item that succeeds runs synchronously
within the pass: no worker is created, its name goes straight into `ran`, and
the exceptions FIFO is untouched. -/
theorem innerPass_sync_dispatched (s : QState) (hjobs : s.jobs = 1)
    (s' : QState) (it : WorkItem)
    (hip : innerPass s = (s', .dispatched it)) :
    s'.running = (flush_terminated s.running s.ran).1 ∧
    s'.ran = (flush_terminated s.running s.ran).2 ++ [it.name] ∧
    s'.exceptions = s.exceptions ∧ it.fails = false := by
  simp only [innerPass, hjobs, lt_self_iff_false, if_false] at hip
  repeat' split at hip
  all_goals injection hip with h1 h2
  all_goals cases h2
  all_goals subst h1
  all_goals refine ⟨rfl, rfl, rfl, ?_⟩
  all_goals rename_i hfl
  all_goals simpa using hfl

/-- With `jobs = 1`, a dispatched item that raises leaves the exceptions FIFO
untouched (the exception propagates straight out of `flush()`, bypassing the
capture protocol), and no worker is created. -/
theorem innerPass_sync_raised (s : QState) (hjobs : s.jobs = 1)
    (s' : QState) (it : WorkItem)
    (hip : innerPass s = (s', .raisedSync it)) :
    s'.running = (flush_terminated s.running s.ran).1 ∧
    s'.ran = (flush_terminated s.running s.ran).2 ∧
    s'.exceptions = s.exceptions ∧ it.fails = true := by
  simp only [innerPass, hjobs, lt_self_iff_false, if_false] at hip
  repeat' split at hip
  all_goals injection hip with h1 h2
  all_goals cases h2
  all_goals subst h1
  all_goals refine ⟨rfl, rfl, rfl, ?_⟩
  all_goals rename_i hfl
  all_goals simpa using hfl

/-- The completed list after a pass is the reaped list, possibly extended by
the name of a synchronously executed item. -/
theorem innerPass_ran (s : QState) :
    (innerPass s).1.ran = (flush_terminated s.running s.ran).2 ∨
    ∃ it : WorkItem,
      (innerPass s).1.ran = (flush_terminated s.running s.ran).2 ++ [it.name] := by
  simp only [innerPass]
  repeat' split
  all_goals
    first
    | exact Or.inl rfl
    | exact Or.inr ⟨_, rfl⟩

/-- One inner pass keeps the running list within the `jobs` bound: it can add
a worker only when strictly fewer than... in fact only when `jobs` differs
from the reaped running count, which under the invariant means strictly
below `jobs`. -/
theorem innerPass_running_le (s : QState) (h : s.running.length ≤ s.jobs) :
    (innerPass s).1.running.length ≤ s.jobs := by
  have hft := flush_terminated_length s.running s.ran
  simp only [innerPass]
  repeat' split
  all_goals simp only [Bool.or_eq_true, Bool.and_eq_true, beq_iff_eq, not_or] at *
  all_goals try simp only [List.length_append, List.length_cons, List.length_nil]
  all_goals omega

/-- Once the exceptions FIFO is non-empty, an inner pass discards the whole
ready queue, dispatches nothing (it breaks), and still reaps terminated
workers. -/
theorem innerPass_excNonempty (s : QState) (h : s.exceptions ≠ []) :
    (innerPass s).2 = .broke ∧
    (innerPass s).1.queued = [] ∧
    (innerPass s).1.running = (flush_terminated s.running s.ran).1 ∧
    (innerPass s).1.ran = (flush_terminated s.running s.ran).2 := by
  have hq : s.exceptions.isEmpty = false := by
    cases hexc : s.exceptions with
    | nil => exact absurd hexc h
    | cons a as => rfl
  simp only [innerPass, hq, Bool.false_eq_true, if_false, findReady]
  repeat' split
  all_goals exact ⟨rfl, rfl, rfl, rfl⟩

/-- No step empties the exceptions FIFO (`flush()` only pops it after the
loop). -/
theorem step_exceptions_monotone (s : QState) (e : Event) (s' : QState)
    (hstep : Step s e s') (h : s.exceptions ≠ []) : s'.exceptions ≠ [] := by
  cases hstep with
  | pass => rw [innerPass_exceptions]; exact h
  | finish k hk halive =>
    show workerRunExcs _ s.exceptions ≠ []
    unfold workerRunExcs
    split
    · simp
    · exact h
  | enq d => exact h

/-- After a failure was captured, no step dispatches an item. -/
theorem step_no_dispatch_after_failure (s : QState) (e : Event) (s' : QState)
    (hstep : Step s e s') (h : s.exceptions ≠ []) : isDispatch e = false := by
  cases hstep with
  | pass =>
    have hb := (innerPass_excNonempty s h).1
    rw [hb]
    rfl
  | finish k hk halive => rfl
  | enq d => rfl

/-- Along any trace from a state with a captured failure, no dispatch ever
happens and the failure stays recorded. -/
theorem trace_no_dispatch_after_failure (s : QState) (evs : List Event)
    (s' : QState) (htr : Trace s evs s') :
    s.exceptions ≠ [] →
      (∀ e ∈ evs, isDispatch e = false) ∧ s'.exceptions ≠ [] := by
  induction htr with
  | nil => intro h; exact ⟨by simp, h⟩
  | cons hstep htr ih =>
    intro h
    have hmid := step_exceptions_monotone _ _ _ hstep h
    obtain ⟨ih1, ih2⟩ := ih hmid
    refine ⟨?_, ih2⟩
    intro e he
    rcases List.mem_cons.mp he with rfl | he'
    · exact step_no_dispatch_after_failure _ _ _ hstep h
    · exact ih1 e he'

/-- The failures captured by a single step. -/
theorem step_exceptions_eq (s : QState) (e : Event) (s' : QState)
    (hstep : Step s e s') :
    s'.exceptions = s.exceptions ++ capturedFailures [e] := by
  cases hstep with
  | pass =>
    rw [innerPass_exceptions]
    simp [capturedFailures]
  | finish k hk halive =>
    show workerRunExcs _ s.exceptions = _
    unfold workerRunExcs
    by_cases hf : (s.running.get ⟨k, hk⟩).item.fails = true
    all_goals simp only [List.get_eq_getElem] at hf
    · simp [capturedFailures, hf, List.filterMap_cons]
    · simp [capturedFailures, hf, List.filterMap_cons]
  | enq d => simp [capturedFailures]

/-- Splitting off the first event's captured failures. -/
theorem capturedFailures_cons (e : Event) (evs : List Event) :
    capturedFailures (e :: evs) = capturedFailures [e] ++ capturedFailures evs := by
  cases e with
  | pass p => simp [capturedFailures]
  | finish itm => by_cases hf : itm.fails = true <;> simp [capturedFailures, hf]
  | enq d => simp [capturedFailures]

/-- The exceptions FIFO after a trace is the starting FIFO followed by the
captured failures, in capture order. -/
theorem trace_exceptions (s : QState) (evs : List Event) (s' : QState)
    (htr : Trace s evs s') :
    s'.exceptions = s.exceptions ++ capturedFailures evs := by
  induction htr with
  | nil => simp [capturedFailures]
  | cons hstep htr ih =>
    rw [ih, step_exceptions_eq _ _ _ hstep]
    conv_rhs => rw [capturedFailures_cons]
    rw [List.append_assoc]

/-! ### C3, C4, C5, C6, C7 -/

/-- C3: for every item the scheduler dispatches — moved from the ready queue
into `running` when `jobs > 1`, or executed synchronously when `jobs = 1`
(whether or not it then raises) — every name in the item's requirements list
is already present in the completed list `self.ran` as it stands at the
moment of dispatch (after the reap performed earlier in the same pass); an
item with an unmet requirement is never started. -/
theorem c3_dispatch_requires_completed (s : QState) (e : Event) (s' : QState)
    (hstep : Step s e s') (it : WorkItem)
    (he : e = .pass (.dispatched it) ∨ e = .pass (.raisedSync it)) :
    ∀ r ∈ it.requirements, r ∈ (flush_terminated s.running s.ran).2 := by
  cases hstep with
  | pass =>
    have hip : innerPass s = ((innerPass s).1, .dispatched it) ∨
        innerPass s = ((innerPass s).1, .raisedSync it) := by
      rcases he with he | he
      · injection he with h2
        exact Or.inl (by rw [← h2])
      · injection he with h2
        exact Or.inr (by rw [← h2])
    have := innerPass_dispatch_reqs s (innerPass s).1 it hip
    exact fun r hr => reqsMet_iff.mp this r hr
  | finish k hk halive => rcases he with he | he <;> cases he
  | enq d => rcases he with he | he <;> cases he

/-- Witness for C3: dispatching the item "c" (which requires "a") from a
queue whose completed list is already ["a"]: the requirement is in the
completed list at dispatch. -/
theorem c3_witness :
    "a" ∈ (flush_terminated ([] : List Worker) ["a"]).2 :=
  c3_dispatch_requires_completed
    ⟨2, [WorkItem.mk "c" ["a"] false []], ["a"], [], []⟩ _ _
    (Step.pass ⟨2, [WorkItem.mk "c" ["a"] false []], ["a"], [], []⟩)
    (WorkItem.mk "c" ["a"] false []) (Or.inl rfl) "a" (by decide)

/-- C4: at every reachable point of a run, the number of running workers is
at most the configured `jobs` bound: from any state satisfying the bound
(in particular the initial state, which has no running workers), every trace
of scheduler passes, worker terminations and enqueues preserves
`len(running) ≤ jobs`. -/
theorem c4_running_bounded (s : QState) (evs : List Event) (s' : QState)
    (htr : Trace s evs s') (h : s.running.length ≤ s.jobs) :
    s'.running.length ≤ s'.jobs := by
  induction htr with
  | nil => exact h
  | cons hstep htr ih =>
    apply ih
    cases hstep with
    | pass =>
      rw [innerPass_jobs]
      exact innerPass_running_le _ h
    | finish k hk halive => simpa [List.length_set] using h
    | enq d => exact h

/-- Witness for C4: with `jobs = 2`, dispatching the single ready item "b"
onto a worker leaves one running worker, within the bound. -/
theorem c4_witness :
    (⟨2, [], [], [Worker.mk (WorkItem.mk "b" [] false []) true], []⟩ : QState).running.length ≤
      (⟨2, [], [], [Worker.mk (WorkItem.mk "b" [] false []) true], []⟩ : QState).jobs :=
  c4_running_bounded ⟨2, [WorkItem.mk "b" [] false []], [], [], []⟩ _ _
    (Trace.cons (Step.pass _) (Trace.nil _)) (by decide)

/-- C5: once the exceptions FIFO is non-empty, the next scheduling pass
discards the entire ready queue and breaks without dispatching, no event of
any further trace dispatches an item (ready items never transition to
running after a failure is observed), the failure stays recorded, and the
pass still reaps terminated workers (running items finish and are
recorded). -/
theorem c5_abort_on_failure (s : QState) (evs : List Event) (s' : QState)
    (htr : Trace s evs s') (h : s.exceptions ≠ []) :
    (∀ e ∈ evs, isDispatch e = false) ∧
    s'.exceptions ≠ [] ∧
    ∀ s₂ ev, innerPass s = (s₂, ev) →
      ev = .broke ∧ s₂.queued = [] ∧
      s₂.running = (flush_terminated s.running s.ran).1 ∧
      s₂.ran = (flush_terminated s.running s.ran).2 := by
  obtain ⟨h1, h2⟩ := trace_no_dispatch_after_failure s evs s' htr h
  refine ⟨h1, h2, ?_⟩
  intro s₂ ev hip
  have hx := innerPass_excNonempty s h
  rw [hip] at hx
  exact hx

/-- Witness for C5: from a state with a pending failure "boom" and one queued
item, the pass breaks without dispatching and the failure persists. -/
theorem c5_witness :
    isDispatch (Event.pass PassEvent.broke) = false ∧
    (⟨2, [], [], [], ["boom"]⟩ : QState).exceptions ≠ [] := by
  have h := c5_abort_on_failure ⟨2, [WorkItem.mk "b" [] false []], [], [], ["boom"]⟩
    [Event.pass PassEvent.broke] ⟨2, [], [], [], ["boom"]⟩
    (Trace.cons (Step.pass _) (Trace.nil _)) (by simp)
  exact ⟨h.1 _ (by simp), h.2.1⟩

/-- C6: when `jobs = 1` a dispatched item executes synchronously in the
calling thread with no worker created — on success its name is appended to
the completed list within the same pass, the running list stays exactly the
reaped one, and the exceptions FIFO is untouched; when its `run()` raises,
the exception propagates straight out of `flush()` without being captured
into the exceptions FIFO (in the executable `jobs = 1` loop, a raising
dispatched item ends the whole flush at once with result `.raised` and an
empty exceptions FIFO). -/
theorem c6_sync_mode (s s' : QState) (hjobs : s.jobs = 1) (it : WorkItem) :
    (innerPass s = (s', .dispatched it) →
      s'.running = (flush_terminated s.running s.ran).1 ∧
      s'.ran = (flush_terminated s.running s.ran).2 ++ [it.name] ∧
      s'.exceptions = s.exceptions) ∧
    (innerPass s = (s', .raisedSync it) →
      s'.running = (flush_terminated s.running s.ran).1 ∧
      s'.exceptions = s.exceptions ∧ it.fails = true) ∧
    (∀ (fuel : Nat) (q : List WorkItem) (ran : List String) (rest : List WorkItem),
      findReady q ran = some (it, rest) → it.fails = true →
      flushSeqLoop (fuel + 1) q ran [] = ⟨.raised it.name, [it], ran, rest, [], []⟩) := by
  refine ⟨fun hip => ?_, fun hip => ?_,
    fun fuel q ran rest hfr hf => flushSeqLoop_fail fuel hfr hf⟩
  · obtain ⟨a, b, c, _⟩ := innerPass_sync_dispatched s hjobs s' it hip
    exact ⟨a, b, c⟩
  · obtain ⟨a, _, c, d⟩ := innerPass_sync_raised s hjobs s' it hip
    exact ⟨a, c, d⟩

/-- Witness for C6: with `jobs = 1`, dispatching the raising item "x" leaves
no worker and an empty exceptions FIFO. -/
theorem c6_witness :
    ((⟨1, [], [], [], []⟩ : QState).running = (flush_terminated [] []).1 ∧
      (⟨1, [], [], [], []⟩ : QState).exceptions =
        (⟨1, [WorkItem.mk "x" [] true []], [], [], []⟩ : QState).exceptions ∧
      (WorkItem.mk "x" [] true []).fails = true) ∧
    flushSeqLoop 5 [WorkItem.mk "x" [] true []] [] [] =
      ⟨.raised "x", [WorkItem.mk "x" [] true []], [], [], [], []⟩ := by
  have h := c6_sync_mode ⟨1, [WorkItem.mk "x" [] true []], [], [], []⟩
    ⟨1, [], [], [], []⟩ rfl (WorkItem.mk "x" [] true [])
  exact ⟨h.2.1 rfl, h.2.2 4 [WorkItem.mk "x" [] true []] [] [] rfl rfl⟩

/-- C7: when the scheduling loop of `flush()` ends (its exit guard — nothing
queued and nothing running — holds), the running collection is empty; if at
least one failure was captured during the run, the epilogue raises exactly
the first captured failure in capture order (the rest stay behind on the
FIFO, discarded), and otherwise it returns success and calls
`progress.end()`. -/
theorem c7_epilogue (init : QState) (evs : List Event) (s' : QState)
    (htr : Trace init evs s') (hinit : init.exceptions = [])
    (hexit : (s'.queued.isEmpty && s'.running.isEmpty) = true) :
    s'.running = [] ∧
    (∀ e rest, capturedFailures evs = e :: rest →
      flushEpilogue s' = (.error e, [])) ∧
    (capturedFailures evs = [] → flushEpilogue s' = (.ok (), [.ended])) := by
  have hexc := trace_exceptions init evs s' htr
  rw [hinit] at hexc
  simp only [List.nil_append] at hexc
  refine ⟨?_, ?_, ?_⟩
  · simp only [Bool.and_eq_true, List.isEmpty_iff] at hexit
    exact hexit.2
  · intro e rest hcapt
    rw [hcapt] at hexc
    simp [flushEpilogue, hexc]
  · intro hcapt
    rw [hcapt] at hexc
    simp [flushEpilogue, hexc]

/-- Witness for C7: a worker for the raising item "x" terminates (capturing
"x"), the next pass reaps it, the loop exit guard holds, and the epilogue
raises exactly that first captured failure. -/
theorem c7_witness :
    (⟨2, [], ["x"], [], ["x"]⟩ : QState).running = [] ∧
    flushEpilogue ⟨2, [], ["x"], [], ["x"]⟩ = (.error "x", []) := by
  have h := c7_epilogue ⟨2, [], [], [Worker.mk (WorkItem.mk "x" [] true []) true], []⟩
    [Event.finish (WorkItem.mk "x" [] true []), Event.pass PassEvent.broke]
    ⟨2, [], ["x"], [], ["x"]⟩
    (Trace.cons (Step.finish _ 0 (by decide) rfl) (Trace.cons (Step.pass _) (Trace.nil _)))
    rfl rfl
  exact ⟨h.1, h.2.1 "x" [] rfl⟩

end Gclient
